import Mathlib

/-!
Verification of the baseball-news-server acquisition-and-generation pipeline.

Shallow embedding of the TypeScript sources:
- `src/src/news/news.service.ts` (seed state machine, syncLatest)
- `src/src/gemini/gemini.service.ts` (URL discovery, batched generation,
  validation)
- `src/src/entities/news.entity.ts`, `src/types/generated-news.ts` (data model)

Host-library behaviour that the code calls into (WHATWG `URL` parsing,
`Date.parse`, the Gemini HTTP backend, the defensive JSON extraction) is
abstracted as explicit function parameters of the model; everything the
repository itself computes is translated directly.
-/

set_option maxRecDepth 4000

/-! ## String helpers

`strIncludes s pat` models JavaScript `s.includes(pat)`. -/

def charsHasStart : List Char → List Char → Bool
  | _, [] => true
  | [], _ :: _ => false
  | a :: as, b :: bs => a == b && charsHasStart as bs

def charsHasPart : List Char → List Char → Bool
  | [], pat => pat.isEmpty
  | a :: as, pat => charsHasStart (a :: as) pat || charsHasPart as pat

def strIncludes (s pat : String) : Bool :=
  charsHasPart s.data pat.data

/-- JavaScript `s.startsWith(pat)`. -/
def jsStartsWith (s pat : String) : Bool :=
  charsHasStart s.data pat.data

/-- JavaScript `s.endsWith(pat)`. -/
def jsEndsWith (s pat : String) : Bool :=
  charsHasStart s.data.reverse pat.data.reverse

/-- The WhiteSpace and LineTerminator code points trimmed by JavaScript
`String.prototype.trim`. -/
def isJsWhitespace (c : Char) : Bool :=
  c ∈ [' ', '\t', '\n', '\r', '\x0b', '\x0c',
       '\u00A0', '\u1680', '\u2000', '\u2001', '\u2002', '\u2003',
       '\u2004', '\u2005', '\u2006', '\u2007', '\u2008', '\u2009',
       '\u200A', '\u2028', '\u2029', '\u202F', '\u205F', '\u3000',
       '\uFEFF']

/-- JavaScript `s.trim()`. -/
def jsTrim (s : String) : String :=
  ⟨((s.data.dropWhile isJsWhitespace).reverse.dropWhile isJsWhitespace).reverse⟩

/-- JavaScript `s.slice(0, n)` (the strings this code truncates stay in
the basic multilingual plane, where UTF-16 units and code points agree). -/
def jsSlice (s : String) (n : Nat) : String :=
  ⟨s.data.take n⟩

/-- JavaScript `s.toLowerCase()` (ASCII fragment, all this code compares). -/
def jsToLower (s : String) : String :=
  ⟨s.data.map Char.toLower⟩

/-! ## Data model

`NewsCategory` is the enum from `src/enums/news/news-category.enum`
(values npb, mlb, hsb, other as used in `news.service.ts`).
`GeneratedNews` is the record shape from `types/generated-news.ts`. -/

inductive NewsCategory where
  | npb
  | mlb
  | hsb
  | other
deriving DecidableEq, Repr

structure GeneratedNews where
  reference_url : String
  reference_name : String
  reference_published_at : String
  header : String
  subheader : String
  summary : String
  body : String
  category : NewsCategory
deriving DecidableEq, Repr

/-! ## Seed status state machine (`news.service.ts`)

`SeedStatus` mirrors the `SeedStatus` union type; `StatusMap` mirrors the
per-category in-memory record `seedStatus`; `scheduled` records the
background jobs handed to `setImmediate` (each entry is the
`(category, startedAt)` pair captured by the scheduled closure).
Discovery/generation requests are issued only by `performSeed`, which runs
exactly once per scheduled entry, so "no generation request is issued"
is expressed as "`scheduled` did not grow". -/

inductive SeedStatus where
  | idle
  | running (startedAt : String)
  | done (startedAt finishedAt : String) (inserted : Nat)
  | error (startedAt : String) (msg : String)
deriving DecidableEq, Repr

structure StatusMap where
  npb : SeedStatus
  mlb : SeedStatus
  hsb : SeedStatus
  other : SeedStatus
deriving DecidableEq, Repr

def StatusMap.get (m : StatusMap) : NewsCategory → SeedStatus
  | .npb => m.npb
  | .mlb => m.mlb
  | .hsb => m.hsb
  | .other => m.other

def StatusMap.set (m : StatusMap) : NewsCategory → SeedStatus → StatusMap
  | .npb, s => { m with npb := s }
  | .mlb, s => { m with mlb := s }
  | .hsb, s => { m with hsb := s }
  | .other, s => { m with other := s }

structure OrchState where
  statuses : StatusMap
  scheduled : List (NewsCategory × String)
deriving DecidableEq, Repr

/-- Initial orchestrator state: every category `idle`, nothing scheduled
(the `seedStatus` field initializer in `NewsService`). -/
def initOrchState : OrchState :=
  ⟨⟨.idle, .idle, .idle, .idle⟩, []⟩

/-- Local progress of one `startSeedIfEmpty` call.  `ready` is before the
synchronous status check; `waitCount` is suspended at
`await this.newsRepository.count(...)`; `retd s` means the call returned `s`. -/
inductive CallPhase where
  | ready
  | waitCount
  | retd (s : SeedStatus)
deriving DecidableEq, Repr

/-- One atomic segment of `startSeedIfEmpty(category)`.  The only `await`
in the function is the repository `count` query, so a call executes as at
most two atomic segments:
segment 1 reads the status and returns early if it is `running`, otherwise
issues the count query; segment 2 resumes with the count: if positive it
records `done{inserted:0}` and returns it, otherwise it transitions to
`running`, schedules the background seed via `setImmediate`, and returns
the running status.  `count` is the store's row count for the category
(the store is not written during the calls modelled here) and `now` is the
ISO timestamp the call obtains from `new Date()`. -/
def stepCall (count : Nat) (now : String) (σ : OrchState) (cat : NewsCategory) :
    CallPhase → OrchState × CallPhase
  | .ready =>
    match σ.statuses.get cat with
    | .running s => (σ, .retd (.running s))
    | _ => (σ, .waitCount)
  | .waitCount =>
    if 0 < count then
      ({ σ with statuses := σ.statuses.set cat (.done now now 0) },
       .retd (.done now now 0))
    else
      ({ σ with statuses := σ.statuses.set cat (.running now),
                scheduled := σ.scheduled ++ [(cat, now)] },
       .retd (.running now))
  | .retd s => (σ, .retd s)

/-- A full, uninterrupted `startSeedIfEmpty` call: both atomic segments run
back to back with no other call interleaved.  The final fallback branch is
unreachable because `stepCall` from `waitCount` always returns `retd`. -/
def seedCallOnce (count : Nat) (now : String) (σ : OrchState) (cat : NewsCategory) :
    OrchState × SeedStatus :=
  match stepCall count now σ cat .ready with
  | (σ1, .retd s) => (σ1, s)
  | (σ1, ph) =>
    match stepCall count now σ1 cat ph with
    | (σ2, .retd s) => (σ2, s)
    | (σ2, _) => (σ2, σ2.statuses.get cat)

/-- Joint state of two concurrent `startSeedIfEmpty` calls A and B on the
same category. -/
structure TwoCalls where
  σ : OrchState
  phA : CallPhase
  phB : CallPhase
deriving DecidableEq, Repr

/-- Run one atomic segment of call A (`false`) or call B (`true`). -/
def schedStep (count : Nat) (nowA nowB : String) (cat : NewsCategory)
    (t : TwoCalls) (b : Bool) : TwoCalls :=
  if b then
    let p := stepCall count nowB t.σ cat t.phB
    ⟨p.1, t.phA, p.2⟩
  else
    let p := stepCall count nowA t.σ cat t.phA
    ⟨p.1, p.2, t.phB⟩

/-- Execute the atomic segments of calls A and B in the given interleaving
order. -/
def runSched (count : Nat) (nowA nowB : String) (cat : NewsCategory)
    (order : List Bool) (t : TwoCalls) : TwoCalls :=
  order.foldl (schedStep count nowA nowB cat) t

/-! ## syncLatest (`news.service.ts`)

`syncLatest` is modelled as a function of the generated list (the result of
the `collectAndGenerate*` call) and the category's currently stored
`reference_url` list.  `persisted` is the entity list passed to
`newsRepository.save`; `saveCalled` records whether `save` was invoked;
`storeAfter` is the stored reference-url set after the call. -/

structure SyncResult where
  persisted : List GeneratedNews
  inserted : Nat
  saveCalled : Bool
  storeAfter : List String
deriving DecidableEq, Repr

def syncLatest (generated : List GeneratedNews) (existing : List String) :
    SyncResult :=
  let diff := generated.filter (fun g => ¬ g.reference_url ∈ existing)
  if diff.length = 0 then
    { persisted := [], inserted := 0, saveCalled := false, storeAfter := existing }
  else
    { persisted := diff
      inserted := diff.length
      saveCalled := true
      storeAfter := existing ++ diff.map (fun g => g.reference_url) }

/-! ## Generation batcher (`gemini.service.ts`, `generateNewsFromUrls`)

Host behaviour the method calls into is collected in `GenEnv`:
`normalizeUrl` models the local `normalizeUrl` closure (WHATWG `URL`
parsing with `search`/`hash` cleared, falling back to `u.trim()` when
parsing throws); `dateParseOk s` models `!isNaN(Date.parse(s))`;
`nowIso` models `new Date().toISOString()`; `respond targetUrls` models
`geminiGenerateText(buildPrompt(targetUrls))` (`none` when it throws);
`parseJson` models `parseJsonFromModel` (`none` when it throws). -/

structure GenEnv where
  normalizeUrl : String → String
  dateParseOk : String → Bool
  nowIso : String
  respond : List String → Option String
  parseJson : String → Option (List GeneratedNews)

/-- Mutable state of one `generateNewsFromUrls` run: the `results` array
and the `seenUrls` set (kept as the list of insertions). -/
structure GenState where
  results : List GeneratedNews
  seenUrls : List String
deriving DecidableEq, Repr

def normRef (env : GenEnv) (item : GeneratedNews) : String :=
  env.normalizeUrl item.reference_url

/-- The `shouldSkip` closure: skip when `reference_url` is falsy or the
header contains a placeholder phrase. -/
def shouldSkip (item : GeneratedNews) : Bool :=
  if item.reference_url = "" then true
  else if strIncludes item.header "見つかりませんでした"
       || strIncludes item.header "未確認" then true
  else false

/-- Whether `reference_published_at` is replaced by "now":
`!publishedAt || publishedAt.includes('-00') || isNaN(Date.parse(publishedAt))`. -/
def badPub (env : GenEnv) (s : String) : Prop :=
  s = "" ∨ strIncludes s "-00" = true ∨ env.dateParseOk s = false

instance (env : GenEnv) (s : String) : Decidable (badPub env s) := by
  unfold badPub; infer_instance

/-- The record pushed onto `results` for an accepted item: spread of the
item with the category, normalized url, reference name and normalized
timestamp overwritten, and `header`/`summary` truncated to 490 characters
(`.slice(0, 490)`). -/
def validatedItem (env : GenEnv) (cat : NewsCategory) (name : String)
    (item : GeneratedNews) : GeneratedNews :=
  { item with
    category := cat
    reference_url := normRef env item
    reference_name := name
    reference_published_at :=
      if badPub env item.reference_published_at then env.nowIso
      else item.reference_published_at
    header := jsSlice item.header 490
    summary := jsSlice item.summary 490 }

/-- The `pushValidated` closure.  Returns the updated state and whether the
item was accepted. -/
def pushValidated (env : GenEnv) (allowed : List String) (cat : NewsCategory)
    (name : String) (st : GenState) (item : GeneratedNews) : GenState × Bool :=
  if normRef env item ∈ allowed then
    if normRef env item = "" ∨ normRef env item ∈ st.seenUrls then (st, false)
    else if shouldSkip item then (st, false)
    else
      (⟨st.results ++ [validatedItem env cat name item],
        st.seenUrls ++ [normRef env item]⟩, true)
  else (st, false)

/-- One iteration of
`for (const item of parsed) { if (pushValidated(item)) added++ }`
over the pair (state, added). -/
def pushStep (env : GenEnv) (allowed : List String) (cat : NewsCategory)
    (name : String) (p : GenState × Nat) (item : GeneratedNews) :
    GenState × Nat :=
  ((pushValidated env allowed cat name p.1 item).1,
   p.2 + if (pushValidated env allowed cat name p.1 item).2 then 1 else 0)

/-- The `for (const item of parsed) { if (pushValidated(item)) added++ }`
loop: fold `pushValidated` over a parsed item list, counting acceptances. -/
def pushAll (env : GenEnv) (allowed : List String) (cat : NewsCategory)
    (name : String) (st : GenState) (items : List GeneratedNews) :
    GenState × Nat :=
  items.foldl (pushStep env allowed cat name) (st, 0)

/-- The `requestOnce` closure: issue one generation request and recover a
parsed item list, treating empty/fence-only responses and every thrown
error as "zero items". -/
def requestOnce (env : GenEnv) (targetUrls : List String) :
    List GeneratedNews :=
  match env.respond targetUrls with
  | none => []
  | some text =>
    if jsTrim text = "" ∨ jsTrim text = "```" then []
    else
      match env.parseJson text with
      | none => []
      | some parsed => parsed

/-- One iteration of the per-URL escalation loop: skip the URL if it was
already produced, otherwise request it alone and validate the result
(the `try/catch` around it never fires in the model because `requestOnce`
already absorbs every failure). -/
def perUrlStep (env : GenEnv) (allowed : List String) (cat : NewsCategory)
    (name : String) (st : GenState) (u : String) : GenState :=
  if env.normalizeUrl u ∈ st.seenUrls then st
  else (pushAll env allowed cat name st (requestOnce env [u])).1

/-- Processing of one batch in the main loop of `generateNewsFromUrls`:
request the whole batch, validate every parsed item, and when the batch
yielded nothing (empty parse or zero accepted) retry its URLs one at a
time. -/
def processBatch (env : GenEnv) (allowed : List String) (cat : NewsCategory)
    (name : String) (st : GenState) (batch : List String) : GenState :=
  if (requestOnce env batch).length = 0
      ∨ (pushAll env allowed cat name st (requestOnce env batch)).2 = 0 then
    batch.foldl (perUrlStep env allowed cat name)
      (pushAll env allowed cat name st (requestOnce env batch)).1
  else (pushAll env allowed cat name st (requestOnce env batch)).1

/-- `this.chunk(urls, 2)`: the generic `chunk` helper instantiated at the
batch size 2 used by `generateNewsFromUrls`. -/
def chunkTwo {α : Type} : List α → List (List α)
  | [] => []
  | [a] => [[a]]
  | a :: b :: t => [a, b] :: chunkTwo t

/-- `generateNewsFromUrls(urls, category, referenceName)`:
chunk the input into batches of 2, process each batch in order
(the inter-batch pacing delay has no observable effect in the model), and
return the accumulated `results`. -/
def generateNewsFromUrls (env : GenEnv) (urls : List String)
    (cat : NewsCategory) (name : String) : List GeneratedNews :=
  ((chunkTwo urls).foldl
    (processBatch env (urls.map env.normalizeUrl) cat name)
    ⟨[], []⟩).results

/-- Invariant of a `generateNewsFromUrls` run with allowed set `allowed`:
every result's `reference_url` is in the allowed set and in `seenUrls`,
result urls are pairwise distinct, and every result carries the caller's
category and reference name and a normalized timestamp. -/
def GoodGen (env : GenEnv) (allowed : List String) (cat : NewsCategory)
    (name : String) (st : GenState) : Prop :=
  (∀ r ∈ st.results, r.reference_url ∈ allowed) ∧
  (st.results.map (fun r => r.reference_url)).Nodup ∧
  (∀ r ∈ st.results, r.reference_url ∈ st.seenUrls) ∧
  (∀ r ∈ st.results,
    r.category = cat ∧ r.reference_name = name ∧
    (r.reference_published_at = env.nowIso ∨
      (r.reference_published_at ≠ "" ∧
       strIncludes r.reference_published_at "-00" = false ∧
       env.dateParseOk r.reference_published_at = true)))

/-! ## Source extractors (`gemini.service.ts`, `fetchLatest*Urls`)

The listing pages are abstracted as the data the cheerio selectors yield:
for NPB a page-indexed family of `href` attribute lists (`$("a[href]")`
in document order), for MLB the list of `article[id]` attribute values,
for HSB/OTHER the matched `href` attribute lists.  WHATWG `URL` parsing is
abstracted by `UrlEnv` over a structured `URLModel` value. -/

/-- Structured WHATWG URL value: the components `new URL` exposes that the
code touches.  `search` and `hash` are stored without their `?`/`#`
sigils; clearing them (`u.search = ""`) sets the field to `""`. -/
structure URLModel where
  scheme : String
  host : String
  path : String
  search : String
  hash : String
deriving DecidableEq, Repr

def urlSafeChar (c : Char) : Bool :=
  c != '?' && c != '#'

/-- Well-formedness a parsed WHATWG URL guarantees: a non-empty scheme and
no raw `?`/`#` in scheme, host or serialized path (the parser
percent-encodes them). -/
def wfURL (u : URLModel) : Bool :=
  (u.scheme != "") && u.scheme.data.all urlSafeChar
    && u.host.data.all urlSafeChar && u.path.data.all urlSafeChar

/-- `u.toString()` for the modelled URL value. -/
def serializeURL (u : URLModel) : String :=
  u.scheme ++ "://" ++ u.host ++ u.path
    ++ (if u.search = "" then "" else "?" ++ u.search)
    ++ (if u.hash = "" then "" else "#" ++ u.hash)

/-- Host URL parser: `parseAbs s` models `new URL(s)` and
`parseRel href base` models `new URL(href, base)`; `none` means the
constructor threw. -/
structure UrlEnv where
  parseAbs : String → Option URLModel
  parseRel : String → String → Option URLModel

/-- NPB href normalization: prepend the site origin to relative hrefs
(`href.startsWith("http") ? href : "https://npb.jp" + href`). -/
def npbAbs (href : String) : String :=
  if jsStartsWith href "http" then href else "https://npb.jp" ++ href

/-- One `$("a[href]").each` callback body of `fetchLatestNpbUrls`:
stop adding once `limit` is reached, keep only hrefs containing
`/news/detail/`, normalize by origin-prefixing and `trim()`, and add to
`collected` if new. -/
def npbAdd (limit : Nat) (c : List String) (href : String) : List String :=
  if limit ≤ c.length then c
  else if href = "" then c
  else if strIncludes href "/news/detail/" then
    if jsTrim (npbAbs href) ∈ c then c
    else c ++ [jsTrim (npbAbs href)]
  else c

/-- Process all hrefs of one NPB listing page. -/
def npbProcessPage (hrefs : List String) (limit : Nat) (c : List String) :
    List String :=
  hrefs.foldl (npbAdd limit) c

/-- The `while (collected.size < limit)` pagination loop of
`fetchLatestNpbUrls`: fetch page `page`, collect its detail links, stop
when a page yields zero new URLs (`foundOnThisPage === 0`), else continue
with the next page.  `fuel` bounds the recursion; since every continued
iteration strictly grows `collected` (bounded by `limit`), a fuel of
`limit + 1` makes the exhaustion branch unreachable
(`npbLoop_fuel_congr` below). -/
def npbLoop (pages : Nat → List String) (limit : Nat) :
    Nat → Nat → List String → List String
  | 0, _, c => c
  | fuel + 1, page, c =>
    if c.length < limit then
      let c' := npbProcessPage (pages page) limit c
      if c'.length = c.length then c'
      else npbLoop pages limit fuel (page + 1) c'
    else c

/-- `fetchLatestNpbUrls(limit)` over an abstract page family:
run the pagination loop from page 1 with an empty set and return
`Array.from(collected).slice(0, limit)`. -/
def fetchLatestNpbUrls (pages : Nat → List String) (limit : Nat) :
    List String :=
  (npbLoop pages limit (limit + 1) 1 []).take limit

/-- Character class of the slug test `/^[a-z0-9-]+$/i`. -/
def isSlugChar (c : Char) : Bool :=
  (c.isAlpha || c.isDigit) || c = '-'

/-- One `$("article[id]").each` callback body of `fetchLatestMlbUrls`
over the state `(seen, out)`. -/
def mlbStep (limit : Nat) (st : List String × List String) (rawId : String) :
    List String × List String :=
  if limit ≤ st.2.length then st
  else if jsTrim rawId = "" then st
  else if jsStartsWith (jsTrim rawId) "ad-" then st
  else if ¬ (jsTrim rawId).data.all isSlugChar then st
  else if "https://www.mlb.com/news/" ++ jsTrim rawId ∈ st.1 then st
  else (st.1 ++ ["https://www.mlb.com/news/" ++ jsTrim rawId],
        st.2 ++ ["https://www.mlb.com/news/" ++ jsTrim rawId])

/-- `fetchLatestMlbUrls(limit)` over the listing page's `article[id]`
attribute values. -/
def fetchLatestMlbUrls (ids : List String) (limit : Nat) : List String :=
  (ids.foldl (mlbStep limit) ([], [])).2

/-- One `$("ul.newslist a[href]").each` callback body of
`fetchLatestHsbUrls`.  `none` models an uncaught `URL` constructor throw,
which aborts the whole call (there is no `try/catch` in this extractor). -/
def hsbStep (uenv : UrlEnv) (limit : Nat) (st : List String × List String)
    (rawHref : String) : Option (List String × List String) :=
  if limit ≤ st.2.length then some st
  else if jsTrim rawHref = "" then some st
  else
    match (if jsStartsWith (jsTrim rawHref) "http" then some (jsTrim rawHref)
           else (uenv.parseRel (jsTrim rawHref)
                  "https://www.nikkansports.com").map serializeURL) with
    | none => none
    | some abs =>
      if ¬ strIncludes abs "/baseball/highschool/news/" then some st
      else
        match uenv.parseAbs abs with
        | none => none
        | some u =>
          if serializeURL { u with search := "", hash := "" } ∈ st.1 then some st
          else some (st.1 ++ [serializeURL { u with search := "", hash := "" }],
                     st.2 ++ [serializeURL { u with search := "", hash := "" }])

/-- Iterate `hsbStep` over the matched hrefs, aborting on a throw. -/
def hsbFold (uenv : UrlEnv) (limit : Nat) :
    List String → List String × List String → Option (List String × List String)
  | [], st => some st
  | h :: t, st =>
    match hsbStep uenv limit st h with
    | none => none
    | some st' => hsbFold uenv limit t st'

/-- `fetchLatestHsbUrls(limit)` over the matched hrefs (`none` = the call
threw). -/
def fetchLatestHsbUrls (uenv : UrlEnv) (hrefs : List String) (limit : Nat) :
    Option (List String) :=
  (hsbFold uenv limit hrefs ([], [])).map (fun st => st.2)

/-- The `isArticleUrl` closure of `fetchLatestOtherUrls`: hostname matches
`/(\.|^)sanspo\.com$/i` and pathname starts with `/article/`. -/
def isArticleUrl (u : URLModel) : Bool :=
  (jsToLower u.host = "sanspo.com" || jsEndsWith (jsToLower u.host) ".sanspo.com")
    && jsStartsWith u.path "/article/"

/-- One `$("a[href]").each` callback body of `fetchLatestOtherUrls`; both
`URL` constructions are wrapped in `try/catch`, so a throw just skips the
element. -/
def otherStep (uenv : UrlEnv) (limit : Nat) (st : List String × List String)
    (rawHref : String) : List String × List String :=
  if limit ≤ st.2.length then st
  else if jsTrim rawHref = "" then st
  else
    match (if jsStartsWith (jsTrim rawHref) "http" then some (jsTrim rawHref)
           else (uenv.parseRel (jsTrim rawHref)
                  "https://www.sanspo.com").map serializeURL) with
    | none => st
    | some abs =>
      match uenv.parseAbs abs with
      | none => st
      | some u0 =>
        if ¬ isArticleUrl { u0 with search := "", hash := "" } then st
        else if serializeURL { u0 with search := "", hash := "" } ∈ st.1 then st
        else (st.1 ++ [serializeURL { u0 with search := "", hash := "" }],
              st.2 ++ [serializeURL { u0 with search := "", hash := "" }])

/-- `fetchLatestOtherUrls(limit)` over the matched hrefs. -/
def fetchLatestOtherUrls (uenv : UrlEnv) (hrefs : List String) (limit : Nat) :
    List String :=
  (hrefs.foldl (otherStep uenv limit) ([], [])).2

/-! ## Concrete instantiations used by witnesses and counterexamples

`new URL` on an already-canonical https URL with no query/fragment returns
the same string, so `fun s => s` is a faithful `normalizeUrl`
instantiation on the URLs these scenarios use. -/

def itemA : GeneratedNews :=
  { reference_url := "https://news.example/a"
    reference_name := "backendName"
    reference_published_at := "2026-01-02T03:04:05.000Z"
    header := "見出しA"
    subheader := ""
    summary := "要約A"
    body := "本文A。"
    category := .mlb }

def envA : GenEnv :=
  { normalizeUrl := fun s => s
    dateParseOk := fun _ => true
    nowIso := "2026-02-03T00:00:00.000Z"
    respond := fun _ => some "resp"
    parseJson := fun _ => some [itemA] }

/-- Backend item whose timestamp contains the invalid `-00` component. -/
def itemBadDate : GeneratedNews :=
  { itemA with reference_published_at := "2026-01-00T00:00:00" }

def envBadDate : GenEnv :=
  { envA with parseJson := fun _ => some [itemBadDate] }

/-- Backend item with an empty `body`. -/
def itemEmptyBody : GeneratedNews :=
  { itemA with body := "" }

def envEmptyBody : GenEnv :=
  { envA with parseJson := fun _ => some [itemEmptyBody] }

/-- Backend item with a 520-character header and an empty body. -/
def itemLongHeader : GeneratedNews :=
  { itemA with header := String.mk (List.replicate 520 'x'), body := "" }

/-- Environment whose backend answers every request with a bare code-fence
marker. -/
def envFence : GenEnv :=
  { envA with respond := fun _ => some "```", parseJson := fun _ => none }

/-- NPB listing page family with one detail link carrying a query string
on page 1 and nothing afterwards. -/
def pagesQuery : Nat → List String :=
  fun p => if p = 1 then ["/news/detail/202602060.html?x=1"] else []

/-- URL parser instantiation returning one fixed well-formed URL. -/
def uenvHsb : UrlEnv :=
  { parseAbs := fun _ =>
      some ⟨"https", "www.nikkansports.com", "/baseball/highschool/news/a.html", "q=1", "f"⟩
    parseRel := fun _ _ => none }

/-! ## Helper lemmas -/

/-- Fold invariant principle: a property preserved by every step of a
`foldl` over elements of the list holds of the result. -/
theorem foldl_inv {α β : Type} (f : β → α → β) (P : β → Prop)
    (l : List α) (b : β) (hb : P b)
    (hf : ∀ x ∈ l, ∀ s, P s → P (f s x)) : P (l.foldl f b) := by
  induction l generalizing b with
  | nil => exact hb
  | cons a t ih =>
    exact ih (f b a) (hf a (List.mem_cons_self _ _) b hb)
      (fun x hx s hs => hf x (List.mem_cons_of_mem _ hx) s hs)

/-- Appending a fresh element keeps a list duplicate-free. -/
theorem nodup_snoc {α : Type} [DecidableEq α] {l : List α} {a : α}
    (hl : l.Nodup) (ha : a ∉ l) : (l ++ [a]).Nodup := by
  simp [List.nodup_append, hl, ha]

theorem statusMap_get_set_same (m : StatusMap) (cat : NewsCategory)
    (s : SeedStatus) : (m.set cat s).get cat = s := by
  cases cat <;> rfl

/-- `pushValidated` preserves the run invariant and never removes a seen
URL. -/
theorem pushValidated_good (env : GenEnv) (allowed : List String)
    (cat : NewsCategory) (name : String) (st : GenState) (item : GeneratedNews)
    (h : GoodGen env allowed cat name st) :
    GoodGen env allowed cat name (pushValidated env allowed cat name st item).1 ∧
    ∀ u ∈ st.seenUrls, u ∈ (pushValidated env allowed cat name st item).1.seenUrls := by
  obtain ⟨h1, h2, h3, h4⟩ := h
  unfold pushValidated
  split
  · rename_i hallow
    split
    · exact ⟨⟨h1, h2, h3, h4⟩, fun u hu => hu⟩
    · rename_i hfresh
      split
      · exact ⟨⟨h1, h2, h3, h4⟩, fun u hu => hu⟩
      · rename_i hskip
        push_neg at hfresh
        refine ⟨⟨?_, ?_, ?_, ?_⟩, ?_⟩
        · intro r hr
          simp only [List.mem_append, List.mem_singleton] at hr
          rcases hr with hr | hr
          · exact h1 r hr
          · subst hr
            simpa [validatedItem] using hallow
        · simp only [List.map_append, List.map_cons, List.map_nil]
          refine nodup_snoc h2 ?_
          intro hmem
          simp only [List.mem_map] at hmem
          obtain ⟨r, hr, hre⟩ := hmem
          have : r.reference_url ∈ st.seenUrls := h3 r hr
          rw [hre] at this
          simp only [validatedItem] at this
          exact hfresh.2 this
        · intro r hr
          simp only [List.mem_append, List.mem_singleton] at hr
          rcases hr with hr | hr
          · exact List.mem_append_left _ (h3 r hr)
          · subst hr
            simp [validatedItem]
        · intro r hr
          simp only [List.mem_append, List.mem_singleton] at hr
          rcases hr with hr | hr
          · exact h4 r hr
          · subst hr
            refine ⟨rfl, rfl, ?_⟩
            simp only [validatedItem]
            by_cases hbp : badPub env item.reference_published_at
            · simp [hbp]
            · rw [if_neg hbp]
              unfold badPub at hbp
              push_neg at hbp
              refine Or.inr ⟨hbp.1, ?_, ?_⟩
              · simpa using hbp.2.1
              · simpa using hbp.2.2
        · intro u hu
          exact List.mem_append_left _ hu
  · exact ⟨⟨h1, h2, h3, h4⟩, fun u hu => hu⟩

/-- The validation fold over a parsed item list preserves the run
invariant, from any starting counter. -/
theorem pushFold_good (env : GenEnv) (allowed : List String)
    (cat : NewsCategory) (name : String) (items : List GeneratedNews) :
    ∀ (st : GenState) (n : Nat), GoodGen env allowed cat name st →
      GoodGen env allowed cat name
        (items.foldl (pushStep env allowed cat name) (st, n)).1 ∧
      ∀ u ∈ st.seenUrls,
        u ∈ (items.foldl (pushStep env allowed cat name) (st, n)).1.seenUrls := by
  induction items with
  | nil => exact fun st n h => ⟨h, fun u hu => hu⟩
  | cons a t ih =>
    intro st n h
    have hp := pushValidated_good env allowed cat name st a h
    have ht := ih (pushValidated env allowed cat name st a).1
      (n + if (pushValidated env allowed cat name st a).2 then 1 else 0) hp.1
    refine ⟨?_, ?_⟩
    · simpa [pushStep] using ht.1
    · intro u hu
      have := ht.2 u (hp.2 u hu)
      simpa [pushStep] using this

/-- `pushAll` preserves the run invariant. -/
theorem pushAll_good (env : GenEnv) (allowed : List String)
    (cat : NewsCategory) (name : String) (st : GenState)
    (items : List GeneratedNews) (h : GoodGen env allowed cat name st) :
    GoodGen env allowed cat name (pushAll env allowed cat name st items).1 ∧
    ∀ u ∈ st.seenUrls, u ∈ (pushAll env allowed cat name st items).1.seenUrls :=
  pushFold_good env allowed cat name items st 0 h

/-- The per-URL escalation step preserves the run invariant. -/
theorem perUrlStep_good (env : GenEnv) (allowed : List String)
    (cat : NewsCategory) (name : String) (st : GenState) (u : String)
    (h : GoodGen env allowed cat name st) :
    GoodGen env allowed cat name (perUrlStep env allowed cat name st u) := by
  unfold perUrlStep
  split
  · exact h
  · exact (pushAll_good env allowed cat name st (requestOnce env [u]) h).1

/-- Batch processing preserves the run invariant. -/
theorem processBatch_good (env : GenEnv) (allowed : List String)
    (cat : NewsCategory) (name : String) (st : GenState) (batch : List String)
    (h : GoodGen env allowed cat name st) :
    GoodGen env allowed cat name (processBatch env allowed cat name st batch) := by
  unfold processBatch
  have h1 := (pushAll_good env allowed cat name st (requestOnce env batch) h).1
  split
  · exact foldl_inv _ _ batch _ h1
      (fun x _ s hs => perUrlStep_good env allowed cat name s x hs)
  · exact h1

/-- The full `generateNewsFromUrls` run satisfies the invariant with the
allowed set `urls.map normalizeUrl`. -/
theorem generate_good (env : GenEnv) (urls : List String)
    (cat : NewsCategory) (name : String) :
    GoodGen env (urls.map env.normalizeUrl) cat name
      ((chunkTwo urls).foldl
        (processBatch env (urls.map env.normalizeUrl) cat name) ⟨[], []⟩) := by
  refine foldl_inv _ _ (chunkTwo urls) _ ?_
    (fun b _ s hs => processBatch_good env _ cat name s b hs)
  refine ⟨?_, ?_, ?_, ?_⟩ <;> simp

/-! ## Claim theorems -/

/-- C1: every item returned by `generateNewsFromUrls(urls, category,
referenceName)` carries a `reference_url` that belongs to the normalized
input URL set — both directly (the stored url is already the normalized
form) and after re-normalization whenever normalization is idempotent (as
WHATWG URL normalization is); no item referencing a URL outside the input
set is ever returned. -/
theorem C1_reference_url_membership (env : GenEnv) (urls : List String)
    (cat : NewsCategory) (name : String) :
    (∀ r ∈ generateNewsFromUrls env urls cat name,
      r.reference_url ∈ urls.map env.normalizeUrl) ∧
    ((∀ s, env.normalizeUrl (env.normalizeUrl s) = env.normalizeUrl s) →
      ∀ r ∈ generateNewsFromUrls env urls cat name,
        env.normalizeUrl r.reference_url ∈ urls.map env.normalizeUrl) := by
  have hg := generate_good env urls cat name
  constructor
  · intro r hr
    exact hg.1 r hr
  · intro hid r hr
    have h1 := hg.1 r hr
    simp only [List.mem_map] at h1 ⊢
    obtain ⟨u, hu, he⟩ := h1
    refine ⟨u, hu, ?_⟩
    rw [← he]
    exact (hid u).symm

theorem C1_witness :
    (validatedItem envA .npb "NPB" itemA).reference_url
      ∈ ["https://news.example/a"].map envA.normalizeUrl ∧
    envA.normalizeUrl (validatedItem envA .npb "NPB" itemA).reference_url
      ∈ ["https://news.example/a"].map envA.normalizeUrl := by
  have h := C1_reference_url_membership envA ["https://news.example/a"] .npb "NPB"
  have hmem : validatedItem envA .npb "NPB" itemA
      ∈ generateNewsFromUrls envA ["https://news.example/a"] .npb "NPB" := by
    decide
  exact ⟨h.1 _ hmem, h.2 (fun _ => rfl) _ hmem⟩

/-- C10: the sequence returned by `generateNewsFromUrls` never contains
two items with the same normalized `reference_url`: the stored urls are
pairwise distinct, and so are their re-normalizations whenever
normalization is idempotent (the `seenUrls` set admits each normalized
url at most once, across batches and per-URL escalation retries alike). -/
theorem C10_no_duplicate_reference_urls (env : GenEnv) (urls : List String)
    (cat : NewsCategory) (name : String) :
    ((generateNewsFromUrls env urls cat name).map
      (fun r => r.reference_url)).Nodup ∧
    ((∀ s, env.normalizeUrl (env.normalizeUrl s) = env.normalizeUrl s) →
      ((generateNewsFromUrls env urls cat name).map
        (fun r => env.normalizeUrl r.reference_url)).Nodup) := by
  have hg := generate_good env urls cat name
  refine ⟨hg.2.1, ?_⟩
  intro hid
  have heq : (generateNewsFromUrls env urls cat name).map
        (fun r => env.normalizeUrl r.reference_url)
      = (generateNewsFromUrls env urls cat name).map
        (fun r => r.reference_url) := by
    apply List.map_congr_left
    intro r hr
    have h1 := hg.1 r hr
    simp only [List.mem_map] at h1
    obtain ⟨u, hu, he⟩ := h1
    rw [← he, hid]
  rw [heq]
  exact hg.2.1

theorem C10_witness :
    ((generateNewsFromUrls envA ["https://news.example/a"] .npb "NPB").map
      (fun r => envA.normalizeUrl r.reference_url)).Nodup :=
  (C10_no_duplicate_reference_urls envA ["https://news.example/a"] .npb "NPB").2
    (fun _ => rfl)

/-- C9: every accepted item has `category` and `reference_name` overwritten
with the caller-supplied values, and `reference_published_at` equal to the
backend's value exactly when that value is non-empty, free of an `-00`
component and parseable — otherwise it is replaced by the current time;
in particular when "now" is parseable every returned timestamp is
parseable. -/
theorem C9_caller_fields_and_timestamp (env : GenEnv) (urls : List String)
    (cat : NewsCategory) (name : String) :
    (∀ (st : GenState) (item : GeneratedNews),
      (pushValidated env (urls.map env.normalizeUrl) cat name st item).2 = true →
      (pushValidated env (urls.map env.normalizeUrl) cat name st item).1.results
        = st.results ++ [validatedItem env cat name item]) ∧
    (∀ item : GeneratedNews,
      (validatedItem env cat name item).category = cat ∧
      (validatedItem env cat name item).reference_name = name ∧
      (validatedItem env cat name item).reference_published_at
        = if badPub env item.reference_published_at then env.nowIso
          else item.reference_published_at) ∧
    (∀ r ∈ generateNewsFromUrls env urls cat name,
      r.category = cat ∧ r.reference_name = name) ∧
    (env.dateParseOk env.nowIso = true →
      ∀ r ∈ generateNewsFromUrls env urls cat name,
        env.dateParseOk r.reference_published_at = true) := by
  have hg := generate_good env urls cat name
  refine ⟨?_, ?_, ?_, ?_⟩
  · intro st item h
    by_cases h1 : normRef env item ∈ urls.map env.normalizeUrl
    · by_cases h2 : normRef env item = "" ∨ normRef env item ∈ st.seenUrls
      · simp [pushValidated, h1, h2] at h
      · by_cases h3 : shouldSkip item = true
        · simp [pushValidated, h1, h2, h3] at h
        · simp [pushValidated, h1, h2, h3]
    · simp [pushValidated, h1] at h
  · exact fun item => ⟨rfl, rfl, rfl⟩
  · intro r hr
    exact ⟨(hg.2.2.2 r hr).1, (hg.2.2.2 r hr).2.1⟩
  · intro hok r hr
    rcases (hg.2.2.2 r hr).2.2 with hnow | hkeep
    · rw [hnow]; exact hok
    · exact hkeep.2.2

theorem C9_witness :
    envBadDate.dateParseOk
      (validatedItem envBadDate .npb "NPB" itemBadDate).reference_published_at
      = true ∧
    (pushValidated envBadDate (["https://news.example/a"].map
        envBadDate.normalizeUrl) .npb "NPB" ⟨[], []⟩ itemBadDate).1.results
      = [] ++ [validatedItem envBadDate .npb "NPB" itemBadDate] := by
  have h := C9_caller_fields_and_timestamp envBadDate ["https://news.example/a"]
    .npb "NPB"
  refine ⟨h.2.2.2 (by decide) _ ?_, h.1 ⟨[], []⟩ itemBadDate (by decide)⟩
  decide

/-- C6: a generation response that is only a code-fence marker, or any
response the defensive parser rejects, yields zero parsed items for that
batch (the failure is absorbed, never rethrown, so the run continues) and
the batch is then handled entirely by the per-URL escalation fold, which
retries each of the batch's URLs individually, skipping URLs whose
normalized form was already produced. -/
theorem C6_malformed_batch_escalates (env : GenEnv) (allowed : List String)
    (cat : NewsCategory) (name : String) :
    (∀ (batch : List String) (t : String), env.respond batch = some t →
      (jsTrim t = "```" ∨ env.parseJson t = none) →
      requestOnce env batch = [] ∧
      ∀ st : GenState, processBatch env allowed cat name st batch
        = batch.foldl (perUrlStep env allowed cat name) st) ∧
    (∀ (st : GenState) (u : String), env.normalizeUrl u ∈ st.seenUrls →
      perUrlStep env allowed cat name st u = st) ∧
    (∀ (st : GenState) (u : String), env.normalizeUrl u ∉ st.seenUrls →
      perUrlStep env allowed cat name st u
        = (pushAll env allowed cat name st (requestOnce env [u])).1) := by
  refine ⟨?_, ?_, ?_⟩
  · intro batch t hresp hbad
    have hro : requestOnce env batch = [] := by
      rcases hbad with hb | hb
      · simp [requestOnce, hresp, hb]
      · by_cases ht : jsTrim t = "" ∨ jsTrim t = "```"
        · simp [requestOnce, hresp, ht]
        · simp [requestOnce, hresp, ht, hb]
    refine ⟨hro, ?_⟩
    intro st
    have hpa : pushAll env allowed cat name st [] = (st, 0) := rfl
    simp [processBatch, hro, hpa]
  · intro st u h
    simp [perUrlStep, h]
  · intro st u h
    simp [perUrlStep, h]

theorem C6_witness :
    requestOnce envFence ["https://news.example/a", "https://news.example/b"]
      = [] ∧
    processBatch envFence [] .npb "NPB" ⟨[], []⟩
        ["https://news.example/a", "https://news.example/b"]
      = ["https://news.example/a", "https://news.example/b"].foldl
          (perUrlStep envFence [] .npb "NPB") ⟨[], []⟩ ∧
    perUrlStep envFence [] .npb "NPB" ⟨[], ["https://news.example/a"]⟩
        "https://news.example/a"
      = ⟨[], ["https://news.example/a"]⟩ := by
  have h := C6_malformed_batch_escalates envFence [] .npb "NPB"
  have h1 := h.1 ["https://news.example/a", "https://news.example/b"] "```"
    rfl (Or.inl (by decide))
  exact ⟨h1.1, h1.2 ⟨[], []⟩, h.2.1 ⟨[], ["https://news.example/a"]⟩
    "https://news.example/a" (by decide)⟩

/-- C7 counterexample: with a backend item whose `body` is empty (and all
URL and placeholder checks passing), `generateNewsFromUrls` returns the
item instead of dropping it: the current validator checks only the
reference url and the placeholder phrases, not emptiness of
`header`/`summary`/`body`. -/
theorem C7_counterexample :
    validatedItem envEmptyBody .npb "NPB" itemEmptyBody
      ∈ generateNewsFromUrls envEmptyBody ["https://news.example/a"] .npb "NPB"
    ∧ (validatedItem envEmptyBody .npb "NPB" itemEmptyBody).body = "" := by
  decide

/-- C7 (amended): a candidate item passing the reference-url checks (its
normalized url is allowed, fresh and non-empty, the raw url is non-empty)
whose header contains no placeholder phrase is always accepted — its
`header` and `summary` are truncated to the first 490 characters rather
than rejected for length, and emptiness of `header`, `summary` or `body`
is not checked (the `body` is stored unchanged, even when empty). -/
theorem C7_truncate_and_no_emptiness_check (env : GenEnv)
    (allowed : List String) (cat : NewsCategory) (name : String)
    (st : GenState) (item : GeneratedNews)
    (hin : normRef env item ∈ allowed)
    (hne : normRef env item ≠ "")
    (hseen : normRef env item ∉ st.seenUrls)
    (hurl : ¬ item.reference_url = "")
    (hph1 : strIncludes item.header "見つかりませんでした" = false)
    (hph2 : strIncludes item.header "未確認" = false) :
    (pushValidated env allowed cat name st item).2 = true ∧
    (pushValidated env allowed cat name st item).1.results
      = st.results ++ [validatedItem env cat name item] ∧
    (validatedItem env cat name item).header = jsSlice item.header 490 ∧
    (validatedItem env cat name item).summary = jsSlice item.summary 490 ∧
    (validatedItem env cat name item).body = item.body := by
  have hskip : shouldSkip item = false := by
    simp [shouldSkip, hurl, hph1, hph2]
  have h2 : ¬ (normRef env item = "" ∨ normRef env item ∈ st.seenUrls) :=
    not_or.mpr ⟨hne, hseen⟩
  refine ⟨?_, ?_, rfl, rfl, rfl⟩ <;> simp [pushValidated, hin, h2, hskip]

theorem C7_amended_witness :
    (pushValidated envA ["https://news.example/a"] .npb "NPB" ⟨[], []⟩
      itemLongHeader).2 = true ∧
    (validatedItem envA .npb "NPB" itemLongHeader).header
      = String.mk (List.replicate 490 'x') ∧
    (validatedItem envA .npb "NPB" itemLongHeader).body = "" := by
  have h := C7_truncate_and_no_emptiness_check envA ["https://news.example/a"]
    .npb "NPB" ⟨[], []⟩ itemLongHeader
    (by decide) (by decide) (by decide) (by decide) (by decide) (by decide)
  refine ⟨h.1, ?_, ?_⟩ <;> decide

/-- Equation for `syncLatest` when the diff is empty. -/
theorem syncLatest_nil (generated : List GeneratedNews) (existing : List String)
    (h : generated.filter (fun g => ¬ g.reference_url ∈ existing) = []) :
    syncLatest generated existing
      = { persisted := [], inserted := 0, saveCalled := false,
          storeAfter := existing } := by
  simp only [syncLatest]
  rw [h]
  rfl

/-- Equation for `syncLatest` when the diff is non-empty. -/
theorem syncLatest_cons (generated : List GeneratedNews) (existing : List String)
    (h : generated.filter (fun g => ¬ g.reference_url ∈ existing) ≠ []) :
    syncLatest generated existing
      = { persisted := generated.filter (fun g => ¬ g.reference_url ∈ existing)
          inserted :=
            (generated.filter (fun g => ¬ g.reference_url ∈ existing)).length
          saveCalled := true
          storeAfter := existing
            ++ (generated.filter (fun g => ¬ g.reference_url ∈ existing)).map
                (fun g => g.reference_url) } := by
  simp only [syncLatest]
  rw [if_neg fun hl => h (List.length_eq_zero.mp hl)]

/-- A second `syncLatest` over the store left by a first run with the same
generated list finds nothing new. -/
theorem syncLatest_repeat_diff_nil (generated : List GeneratedNews)
    (existing : List String) :
    generated.filter
      (fun g => ¬ g.reference_url ∈ (syncLatest generated existing).storeAfter)
      = [] := by
  rw [List.filter_eq_nil_iff]
  intro g hg
  simp only [decide_eq_true_eq, not_not]
  by_cases hd : generated.filter (fun g => ¬ g.reference_url ∈ existing) = []
  · have hmem := List.filter_eq_nil_iff.mp hd g hg
    simp only [decide_eq_true_eq, not_not] at hmem
    rw [syncLatest_nil generated existing hd]
    exact hmem
  · rw [syncLatest_cons generated existing hd]
    by_cases he : g.reference_url ∈ existing
    · exact List.mem_append_left _ he
    · refine List.mem_append_right _ ?_
      simp only [List.mem_map]
      exact ⟨g, List.mem_filter.mpr ⟨hg, by simp [he]⟩, rfl⟩

/-- C4: `syncLatest` persists exactly the generated items whose
`reference_url` is not already stored for the category and returns their
count; when the diff is empty it returns 0 without calling `save`; and a
repeat call with the same (deterministically regenerated) list over the
store the first call left behind inserts zero and performs no save. -/
theorem C4_sync_persists_diff (generated : List GeneratedNews)
    (existing : List String) :
    (syncLatest generated existing).persisted
      = generated.filter (fun g => ¬ g.reference_url ∈ existing) ∧
    (syncLatest generated existing).inserted
      = (syncLatest generated existing).persisted.length ∧
    (generated.filter (fun g => ¬ g.reference_url ∈ existing) = [] →
      (syncLatest generated existing).inserted = 0 ∧
      (syncLatest generated existing).saveCalled = false) ∧
    (syncLatest generated (syncLatest generated existing).storeAfter).inserted
      = 0 ∧
    (syncLatest generated
      (syncLatest generated existing).storeAfter).saveCalled = false := by
  have h2 := syncLatest_nil generated (syncLatest generated existing).storeAfter
    (syncLatest_repeat_diff_nil generated existing)
  refine ⟨?_, ?_, ?_, ?_, ?_⟩
  · by_cases hd : generated.filter (fun g => ¬ g.reference_url ∈ existing) = []
    · rw [syncLatest_nil generated existing hd, hd]
    · rw [syncLatest_cons generated existing hd]
  · by_cases hd : generated.filter (fun g => ¬ g.reference_url ∈ existing) = []
    · rw [syncLatest_nil generated existing hd]
      rfl
    · rw [syncLatest_cons generated existing hd]
  · intro hd
    rw [syncLatest_nil generated existing hd]
    exact ⟨rfl, rfl⟩
  · rw [h2]
  · rw [h2]

theorem C4_witness :
    (syncLatest [itemA] ["https://news.example/a"]).inserted = 0 ∧
    (syncLatest [itemA] ["https://news.example/a"]).saveCalled = false ∧
    (syncLatest [itemA] []).persisted
      = [itemA].filter (fun g => ¬ g.reference_url ∈ ([] : List String)) := by
  have h := C4_sync_persists_diff [itemA] ["https://news.example/a"]
  have h0 := C4_sync_persists_diff [itemA] []
  exact ⟨(h.2.2.1 (by decide)).1, (h.2.2.1 (by decide)).2, h0.1⟩

/-- C2 counterexample: two `startSeedIfEmpty` calls on an empty category
(`count = 0`), interleaved at the `await count` suspension point
(A check, B check, A resume, B resume), BOTH schedule a background seed
run — the status check of each call happens before either has transitioned
to `running`, so the claimed atomicity does not hold; the second call even
returns its own `running` status while two jobs sit in the queue. -/
theorem C2_counterexample :
    (runSched 0 "tA" "tB" .npb [false, true, false, true]
      ⟨initOrchState, .ready, .ready⟩).σ.scheduled
      = [(.npb, "tA"), (.npb, "tB")] ∧
    (runSched 0 "tA" "tB" .npb [false, true, false, true]
      ⟨initOrchState, .ready, .ready⟩).phB
      = .retd (.running "tB") := by
  decide

/-- C2 (amended): when the second call's status check happens only after
the first call has completed (no interleaving at the `await count`
suspension), exactly one background run is scheduled and the second call
returns the first call's `running` status unchanged; but when both calls
pass the status check before either resumes from the count query, both
schedule background work — the `running` transition is not atomic with
respect to callers suspended at the count await. -/
theorem C2_amended_single_schedule (cat : NewsCategory) (nowA nowB : String) :
    (runSched 0 nowA nowB cat [false, false, true]
      ⟨initOrchState, .ready, .ready⟩).σ.scheduled = [(cat, nowA)] ∧
    (runSched 0 nowA nowB cat [false, false, true]
      ⟨initOrchState, .ready, .ready⟩).phA = .retd (.running nowA) ∧
    (runSched 0 nowA nowB cat [false, false, true]
      ⟨initOrchState, .ready, .ready⟩).phB = .retd (.running nowA) ∧
    (runSched 0 nowA nowB cat [false, true, false, true]
      ⟨initOrchState, .ready, .ready⟩).σ.scheduled.length = 2 := by
  cases cat <;>
    simp [runSched, schedStep, stepCall, initOrchState, StatusMap.get,
      StatusMap.set]

/-- Equation for a full `startSeedIfEmpty` call when the current status is
not `running` and the store already holds rows. -/
theorem seedCallOnce_nonempty (count : Nat) (now : String) (σ : OrchState)
    (cat : NewsCategory) (hc : 0 < count)
    (hnr : ∀ s, σ.statuses.get cat ≠ .running s) :
    seedCallOnce count now σ cat
      = ({ σ with statuses := σ.statuses.set cat (.done now now 0) },
         .done now now 0) := by
  unfold seedCallOnce stepCall
  rcases hg : σ.statuses.get cat with _ | s | ⟨a, b, n⟩ | ⟨a, m⟩
  · simp [hg, hc]
  · exact absurd hg (hnr s)
  · simp [hg, hc]
  · simp [hg, hc]

/-- Equation for a full `startSeedIfEmpty` call when the current status is
`running`: it returns that status and changes nothing. -/
theorem seedCallOnce_running (count : Nat) (now : String) (σ : OrchState)
    (cat : NewsCategory) (s : String)
    (hr : σ.statuses.get cat = .running s) :
    seedCallOnce count now σ cat = (σ, .running s) := by
  unfold seedCallOnce stepCall
  simp [hr]

/-- C3: for a category whose store count is non-zero and whose status is
not `running`, `startSeedIfEmpty` records and returns `done{inserted:0}`
and schedules no background work (so no discovery or generation request is
issued); an immediately following call does the same, returning
`done{inserted:0}` again with still nothing scheduled; and when the status
is already `running` the call returns it unchanged with the whole state
untouched. -/
theorem C3_seed_noop_when_nonempty (σ : OrchState) (cat : NewsCategory)
    (count : Nat) (nowA nowB : String) (hc : 0 < count)
    (hnr : ∀ s, σ.statuses.get cat ≠ .running s) :
    (seedCallOnce count nowA σ cat).2 = .done nowA nowA 0 ∧
    (seedCallOnce count nowA σ cat).1.scheduled = σ.scheduled ∧
    (seedCallOnce count nowA σ cat).1.statuses.get cat = .done nowA nowA 0 ∧
    (seedCallOnce count nowB (seedCallOnce count nowA σ cat).1 cat).2
      = .done nowB nowB 0 ∧
    (seedCallOnce count nowB
      (seedCallOnce count nowA σ cat).1 cat).1.scheduled = σ.scheduled ∧
    (∀ (s : String) (σ' : OrchState), σ'.statuses.get cat = .running s →
      seedCallOnce count nowA σ' cat = (σ', .running s)) := by
  have h1 := seedCallOnce_nonempty count nowA σ cat hc hnr
  have hd1 : (seedCallOnce count nowA σ cat).1.statuses.get cat
      = .done nowA nowA 0 := by
    rw [h1]
    exact statusMap_get_set_same σ.statuses cat (.done nowA nowA 0)
  have hnr2 : ∀ s, (seedCallOnce count nowA σ cat).1.statuses.get cat
      ≠ .running s := by
    intro s
    rw [hd1]
    intro hcon
    exact SeedStatus.noConfusion hcon
  have h2 := seedCallOnce_nonempty count nowB
    (seedCallOnce count nowA σ cat).1 cat hc hnr2
  refine ⟨by rw [h1], by rw [h1], hd1, by rw [h2], by rw [h2, h1], ?_⟩
  intro s σ' hr
  exact seedCallOnce_running count nowA σ' cat s hr

theorem C3_witness :
    (seedCallOnce 1 "a" initOrchState .npb).2 = .done "a" "a" 0 ∧
    (seedCallOnce 1 "b" (seedCallOnce 1 "a" initOrchState .npb).1 .npb).2
      = .done "b" "b" 0 ∧
    (seedCallOnce 1 "b"
      (seedCallOnce 1 "a" initOrchState .npb).1 .npb).1.scheduled = [] := by
  have h := C3_seed_noop_when_nonempty initOrchState .npb 1 "a" "b"
    (by decide) (by intro s h; simp [initOrchState, StatusMap.get] at h)
  exact ⟨h.1, h.2.2.2.1, h.2.2.2.2.1⟩

/-! ## Discovery lemmas -/

/-- Provenance of an NPB collected entry: it is the trimmed,
origin-prefixed form of an href found on some listing page. -/
def NpbProv (pages : Nat → List String) (x : String) : Prop :=
  ∃ p href, href ∈ pages p ∧ x = jsTrim (npbAbs href)

/-- `npbAdd` preserves duplicate-freeness, the length bound and
provenance, and never shrinks the list. -/
theorem npbAdd_inv (pages : Nat → List String) (limit : Nat) (pg : Nat)
    (href : String) (hhref : href ∈ pages pg) (c : List String)
    (h : c.Nodup ∧ c.length ≤ limit ∧ ∀ x ∈ c, NpbProv pages x) :
    (npbAdd limit c href).Nodup ∧ (npbAdd limit c href).length ≤ limit ∧
      ∀ x ∈ npbAdd limit c href, NpbProv pages x := by
  obtain ⟨h1, h2, h3⟩ := h
  unfold npbAdd
  split
  · exact ⟨h1, h2, h3⟩
  · rename_i hlt
    split
    · exact ⟨h1, h2, h3⟩
    · split
      · split
        · exact ⟨h1, h2, h3⟩
        · rename_i hnew
          refine ⟨nodup_snoc h1 hnew, ?_, ?_⟩
          · simp only [List.length_append, List.length_cons, List.length_nil]
            omega
          · intro x hx
            simp only [List.mem_append, List.mem_singleton] at hx
            rcases hx with hx | hx
            · exact h3 x hx
            · exact ⟨pg, href, hhref, hx⟩
      · exact ⟨h1, h2, h3⟩

/-- `npbProcessPage` preserves the NPB collection invariant. -/
theorem npbProcessPage_inv (pages : Nat → List String) (limit : Nat)
    (pg : Nat) (c : List String)
    (h : c.Nodup ∧ c.length ≤ limit ∧ ∀ x ∈ c, NpbProv pages x) :
    (npbProcessPage (pages pg) limit c).Nodup ∧
    (npbProcessPage (pages pg) limit c).length ≤ limit ∧
    ∀ x ∈ npbProcessPage (pages pg) limit c, NpbProv pages x := by
  unfold npbProcessPage
  exact foldl_inv _ _ (pages pg) c h
    (fun href hhref s hs => npbAdd_inv pages limit pg href hhref s hs)

/-- `npbProcessPage` never shrinks the collection. -/
theorem npbProcessPage_len (hrefs : List String) (limit : Nat)
    (c : List String) :
    c.length ≤ (npbProcessPage hrefs limit c).length := by
  unfold npbProcessPage
  refine foldl_inv (npbAdd limit) (fun x => c.length ≤ x.length) hrefs c
    (Nat.le_refl _) ?_
  intro href _ s hs
  unfold npbAdd
  split
  · exact hs
  · split
    · exact hs
    · split
      · split
        · exact hs
        · simp only [List.length_append, List.length_cons, List.length_nil]
          omega
      · exact hs

/-- The NPB pagination loop preserves the collection invariant. -/
theorem npbLoop_inv (pages : Nat → List String) (limit : Nat) :
    ∀ (fuel pg : Nat) (c : List String),
      (c.Nodup ∧ c.length ≤ limit ∧ ∀ x ∈ c, NpbProv pages x) →
      (npbLoop pages limit fuel pg c).Nodup ∧
      (npbLoop pages limit fuel pg c).length ≤ limit ∧
      ∀ x ∈ npbLoop pages limit fuel pg c, NpbProv pages x := by
  intro fuel
  induction fuel with
  | zero => exact fun pg c h => h
  | succ f ih =>
    intro pg c h
    simp only [npbLoop]
    split
    · have hp := npbProcessPage_inv pages limit pg c h
      split
      · exact hp
      · exact ih (pg + 1) _ hp
    · exact h

/-- When the collection has already reached the limit, the pagination loop
returns it untouched, consulting no page at all. -/
theorem npbLoop_stop_at_limit (pages : Nat → List String) (limit fuel pg : Nat)
    (c : List String) (h : limit ≤ c.length) :
    npbLoop pages limit fuel pg c = c := by
  cases fuel with
  | zero => rfl
  | succ f =>
    simp only [npbLoop]
    rw [if_neg (Nat.not_lt.mpr h)]

/-- When the current page yields zero new URLs, the pagination loop stops
with the current collection, for any fuel. -/
theorem npbLoop_zero_new_self (pages : Nat → List String) (limit pg : Nat)
    (c : List String) (hzero : npbProcessPage (pages pg) limit c = c) :
    ∀ fuel, npbLoop pages limit fuel pg c = c := by
  intro fuel
  cases fuel with
  | zero => rfl
  | succ f =>
    simp only [npbLoop]
    split
    · simp [hzero]
    · rfl

/-- When the current page yields zero new URLs, the loop result does not
depend on any other page or on the fuel: pagination stops there. -/
theorem npbLoop_stop_on_zero_new (pages pages' : Nat → List String)
    (limit pg : Nat) (c : List String) (hagree : pages pg = pages' pg)
    (hzero : npbProcessPage (pages pg) limit c = c) (fuel fuel' : Nat) :
    npbLoop pages limit fuel pg c = npbLoop pages' limit fuel' pg c := by
  rw [npbLoop_zero_new_self pages limit pg c hzero fuel,
      npbLoop_zero_new_self pages' limit pg c (by rw [← hagree]; exact hzero)
        fuel']

/-- Fuel irrelevance: any fuel exceeding `limit - |collected|` yields the
same loop result, so the `limit + 1` fuel used by `fetchLatestNpbUrls`
computes the exact fixpoint of the source's `while` loop. -/
theorem npbLoop_fuel_congr (pages : Nat → List String) (limit : Nat) :
    ∀ (fuel₁ fuel₂ pg : Nat) (c : List String),
      limit - c.length < fuel₁ → limit - c.length < fuel₂ →
      npbLoop pages limit fuel₁ pg c = npbLoop pages limit fuel₂ pg c := by
  intro fuel₁
  induction fuel₁ with
  | zero => omega
  | succ f ih =>
    intro fuel₂ pg c h₁ h₂
    cases fuel₂ with
    | zero => omega
    | succ g =>
      simp only [npbLoop]
      by_cases hlt : c.length < limit
      · rw [if_pos hlt, if_pos hlt]
        by_cases heq :
            (npbProcessPage (pages pg) limit c).length = c.length
        · rw [if_pos heq, if_pos heq]
        · rw [if_neg heq, if_neg heq]
          have hmono := npbProcessPage_len (pages pg) limit c
          exact ih g (pg + 1) _ (by omega) (by omega)
      · rw [if_neg hlt, if_neg hlt]

/-- Shape of an MLB output URL: the fixed news origin followed by a
non-empty slug of letters, digits and hyphens. -/
def MlbProp (s : String) : Prop :=
  ∃ id, s = "https://www.mlb.com/news/" ++ id ∧
    id.data.all isSlugChar = true ∧ id ≠ ""

/-- `mlbStep` preserves the MLB extraction invariant. -/
theorem mlbStep_inv (limit : Nat) (rawId : String)
    (st : List String × List String)
    (h : st.1 = st.2 ∧ st.2.Nodup ∧ st.2.length ≤ limit ∧
      ∀ s ∈ st.2, MlbProp s) :
    (mlbStep limit st rawId).1 = (mlbStep limit st rawId).2 ∧
    (mlbStep limit st rawId).2.Nodup ∧
    (mlbStep limit st rawId).2.length ≤ limit ∧
    ∀ s ∈ (mlbStep limit st rawId).2, MlbProp s := by
  obtain ⟨h0, h1, h2, h3⟩ := h
  unfold mlbStep
  split
  · exact ⟨h0, h1, h2, h3⟩
  · rename_i hlt
    split
    · exact ⟨h0, h1, h2, h3⟩
    · rename_i hid
      split
      · exact ⟨h0, h1, h2, h3⟩
      · split
        · exact ⟨h0, h1, h2, h3⟩
        · rename_i hslug
          split
          · exact ⟨h0, h1, h2, h3⟩
          · rename_i hnew
            rw [h0] at hnew
            refine ⟨by rw [h0], nodup_snoc h1 hnew, ?_, ?_⟩
            · simp only [List.length_append, List.length_cons,
                List.length_nil]
              omega
            · intro s hs
              simp only [List.mem_append, List.mem_singleton] at hs
              rcases hs with hs | hs
              · exact h3 s hs
              · exact ⟨jsTrim rawId, hs, not_not.mp hslug, hid⟩

/-- C5/C8 shape of every URL collected by the HSB and OTHER extractors:
the serialization of a well-formed URL whose query and fragment have been
cleared. -/
def StrippedURL (s : String) : Prop :=
  ∃ u : URLModel, wfURL u = true ∧ u.search = "" ∧ u.hash = "" ∧
    s = serializeURL u

/-- `hsbStep` either aborts or preserves the HSB extraction invariant,
for any property `Q` that holds of every normalized parsed URL. -/
theorem hsbStep_inv (uenv : UrlEnv) (limit : Nat) (rawHref : String)
    (st st' : List String × List String) (Q : String → Prop)
    (hQ : ∀ t u, uenv.parseAbs t = some u →
      Q (serializeURL { u with search := "", hash := "" }))
    (hstep : hsbStep uenv limit st rawHref = some st')
    (h : st.1 = st.2 ∧ st.2.Nodup ∧ st.2.length ≤ limit ∧
      ∀ s ∈ st.2, Q s) :
    st'.1 = st'.2 ∧ st'.2.Nodup ∧ st'.2.length ≤ limit ∧
      ∀ s ∈ st'.2, Q s := by
  obtain ⟨h0, h1, h2, h3⟩ := h
  unfold hsbStep at hstep
  split at hstep
  · cases hstep
    exact ⟨h0, h1, h2, h3⟩
  · rename_i hlt
    split at hstep
    · cases hstep
      exact ⟨h0, h1, h2, h3⟩
    · split at hstep
      · exact absurd hstep (by simp)
      · rename_i abs habs
        split at hstep
        · cases hstep
          exact ⟨h0, h1, h2, h3⟩
        · split at hstep
          · exact absurd hstep (by simp)
          · rename_i u hu
            split at hstep
            · cases hstep
              exact ⟨h0, h1, h2, h3⟩
            · rename_i hnew
              cases hstep
              rw [h0] at hnew
              refine ⟨by rw [h0], nodup_snoc h1 hnew, ?_, ?_⟩
              · simp only [List.length_append, List.length_cons,
                  List.length_nil]
                omega
              · intro s hs
                simp only [List.mem_append, List.mem_singleton] at hs
                rcases hs with hs | hs
                · exact h3 s hs
                · rw [hs]
                  exact hQ abs u hu

/-- The HSB href fold either aborts or preserves the extraction
invariant. -/
theorem hsbFold_inv (uenv : UrlEnv) (limit : Nat) (Q : String → Prop)
    (hQ : ∀ t u, uenv.parseAbs t = some u →
      Q (serializeURL { u with search := "", hash := "" })) :
    ∀ (hrefs : List String) (st st' : List String × List String),
      hsbFold uenv limit hrefs st = some st' →
      (st.1 = st.2 ∧ st.2.Nodup ∧ st.2.length ≤ limit ∧
        ∀ s ∈ st.2, Q s) →
      st'.1 = st'.2 ∧ st'.2.Nodup ∧ st'.2.length ≤ limit ∧
        ∀ s ∈ st'.2, Q s := by
  intro hrefs
  induction hrefs with
  | nil =>
    intro st st' hf h
    cases hf
    exact h
  | cons a t ih =>
    intro st st' hf h
    unfold hsbFold at hf
    split at hf
    · exact absurd hf (by simp)
    · rename_i st1 hstep
      exact ih st1 st' hf (hsbStep_inv uenv limit a st st1 Q hQ hstep h)

/-- `otherStep` preserves the OTHER extraction invariant, for any property
`Q` that holds of every normalized parsed URL. -/
theorem otherStep_inv (uenv : UrlEnv) (limit : Nat) (rawHref : String)
    (st : List String × List String) (Q : String → Prop)
    (hQ : ∀ t u, uenv.parseAbs t = some u →
      Q (serializeURL { u with search := "", hash := "" }))
    (h : st.1 = st.2 ∧ st.2.Nodup ∧ st.2.length ≤ limit ∧
      ∀ s ∈ st.2, Q s) :
    (otherStep uenv limit st rawHref).1 = (otherStep uenv limit st rawHref).2 ∧
    (otherStep uenv limit st rawHref).2.Nodup ∧
    (otherStep uenv limit st rawHref).2.length ≤ limit ∧
    ∀ s ∈ (otherStep uenv limit st rawHref).2, Q s := by
  obtain ⟨h0, h1, h2, h3⟩ := h
  unfold otherStep
  split
  · exact ⟨h0, h1, h2, h3⟩
  · rename_i hlt
    split
    · exact ⟨h0, h1, h2, h3⟩
    · split
      · exact ⟨h0, h1, h2, h3⟩
      · rename_i abs habs
        split
        · exact ⟨h0, h1, h2, h3⟩
        · rename_i u0 hu0
          split
          · exact ⟨h0, h1, h2, h3⟩
          · split
            · exact ⟨h0, h1, h2, h3⟩
            · rename_i hart hnew
              rw [h0] at hnew
              refine ⟨by rw [h0], nodup_snoc h1 hnew, ?_, ?_⟩
              · simp only [List.length_append, List.length_cons,
                  List.length_nil]
                omega
              · intro s hs
                simp only [List.mem_append, List.mem_singleton] at hs
                rcases hs with hs | hs
                · exact h3 s hs
                · rw [hs]
                  exact hQ abs u0 hu0

/-- Serializing a well-formed URL with cleared query and fragment yields a
string containing neither `?` nor `#`. -/
theorem serializeURL_no_query_frag (u : URLModel) (hwf : wfURL u = true)
    (hs : u.search = "") (hh : u.hash = "") :
    '?' ∉ (serializeURL u).data ∧ '#' ∉ (serializeURL u).data := by
  unfold wfURL at hwf
  simp only [Bool.and_eq_true, List.all_eq_true] at hwf
  obtain ⟨⟨⟨-, hsc⟩, hho⟩, hpa⟩ := hwf
  have hsafe : ∀ c ∈ (serializeURL u).data, urlSafeChar c = true := by
    intro c hc
    unfold serializeURL at hc
    rw [hs, hh] at hc
    simp only [if_pos, String.append_empty, String.data_append,
      List.mem_append] at hc
    rcases hc with ((hc | hc) | hc) | hc
    · exact hsc c hc
    · simp only [List.mem_cons] at hc
      rcases hc with rfl | rfl | rfl | hc
      · decide
      · decide
      · decide
      · exact absurd hc (List.not_mem_nil _)
    · exact hho c hc
    · exact hpa c hc
  constructor <;> intro hmem <;> have := hsafe _ hmem <;>
    simp [urlSafeChar] at this

/-- An MLB-shaped URL contains no `?` and no `#`. -/
theorem mlbProp_no_query_frag (s : String) (h : MlbProp s) :
    '?' ∉ s.data ∧ '#' ∉ s.data := by
  obtain ⟨id, rfl, hall, -⟩ := h
  rw [List.all_eq_true] at hall
  constructor <;> intro hmem <;>
    simp only [String.data_append, List.mem_append] at hmem
  · rcases hmem with hmem | hmem
    · revert hmem
      decide
    · exact absurd (hall _ hmem) (by decide)
  · rcases hmem with hmem | hmem
    · revert hmem
      decide
    · exact absurd (hall _ hmem) (by decide)

/-- C5: every discovery run returns a duplicate-free sequence no longer
than the requested limit (HSB: whenever the call returns rather than
throwing), and NPB pagination stops as soon as the limit is reached (the
collection is returned untouched) or a page yields zero new URLs (the
result then does not depend on any later page, for any fuel). -/
theorem C5_discovery_nodup_and_limit :
    (∀ (pages : Nat → List String) (limit : Nat),
      (fetchLatestNpbUrls pages limit).Nodup ∧
      (fetchLatestNpbUrls pages limit).length ≤ limit) ∧
    (∀ (ids : List String) (limit : Nat),
      (fetchLatestMlbUrls ids limit).Nodup ∧
      (fetchLatestMlbUrls ids limit).length ≤ limit) ∧
    (∀ (uenv : UrlEnv) (hrefs : List String) (limit : Nat)
        (out : List String),
      fetchLatestHsbUrls uenv hrefs limit = some out →
      out.Nodup ∧ out.length ≤ limit) ∧
    (∀ (uenv : UrlEnv) (hrefs : List String) (limit : Nat),
      (fetchLatestOtherUrls uenv hrefs limit).Nodup ∧
      (fetchLatestOtherUrls uenv hrefs limit).length ≤ limit) ∧
    (∀ (pages : Nat → List String) (limit fuel pg : Nat) (c : List String),
      limit ≤ c.length → npbLoop pages limit fuel pg c = c) ∧
    (∀ (pages pages' : Nat → List String) (limit pg : Nat)
        (c : List String) (fuel fuel' : Nat), pages pg = pages' pg →
      npbProcessPage (pages pg) limit c = c →
      npbLoop pages limit fuel pg c = npbLoop pages' limit fuel' pg c) := by
  refine ⟨?_, ?_, ?_, ?_, ?_, ?_⟩
  · intro pages limit
    have h := npbLoop_inv pages limit (limit + 1) 1 []
      ⟨List.nodup_nil, by simp, by simp⟩
    constructor
    · exact List.Nodup.sublist (List.take_sublist _ _) h.1
    · simp only [fetchLatestNpbUrls, List.length_take]
      exact min_le_left _ _
  · intro ids limit
    have h := foldl_inv (mlbStep limit)
      (fun st => st.1 = st.2 ∧ st.2.Nodup ∧ st.2.length ≤ limit ∧
        ∀ s ∈ st.2, MlbProp s)
      ids ([], []) ⟨rfl, List.nodup_nil, by simp, by simp⟩
      (fun rawId _ st hst => mlbStep_inv limit rawId st hst)
    exact ⟨h.2.1, h.2.2.1⟩
  · intro uenv hrefs limit out hout
    obtain ⟨st', hf, hst'⟩ := Option.map_eq_some'.mp hout
    have h := hsbFold_inv uenv limit (fun _ => True) (fun _ _ _ => trivial)
      hrefs ([], []) st' hf ⟨rfl, List.nodup_nil, by simp, by simp⟩
    rw [← hst']
    exact ⟨h.2.1, h.2.2.1⟩
  · intro uenv hrefs limit
    have h := foldl_inv (otherStep uenv limit)
      (fun st => st.1 = st.2 ∧ st.2.Nodup ∧ st.2.length ≤ limit ∧
        ∀ s ∈ st.2, True)
      hrefs ([], []) ⟨rfl, List.nodup_nil, by simp, by simp⟩
      (fun rawHref _ st hst =>
        otherStep_inv uenv limit rawHref st (fun _ => True)
          (fun _ _ _ => trivial) hst)
    exact ⟨h.2.1, h.2.2.1⟩
  · intro pages limit fuel pg c h
    exact npbLoop_stop_at_limit pages limit fuel pg c h
  · intro pages pages' limit pg c fuel fuel' hagree hzero
    exact npbLoop_stop_on_zero_new pages pages' limit pg c hagree hzero
      fuel fuel'

theorem C5_witness :
    (["https://www.nikkansports.com/baseball/highschool/news/a.html"] :
      List String).Nodup ∧
    (["https://www.nikkansports.com/baseball/highschool/news/a.html"] :
      List String).length ≤ 10 ∧
    npbLoop pagesQuery 1 5 3 ["a"] = ["a"] ∧
    npbLoop pagesQuery 2 7 5 [] = npbLoop (fun _ => []) 2 9 5 [] := by
  have h := C5_discovery_nodup_and_limit
  have hh := h.2.2.1 uenvHsb ["http://x/baseball/highschool/news/a.html"] 10
    ["https://www.nikkansports.com/baseball/highschool/news/a.html"]
    (by decide)
  exact ⟨hh.1, hh.2, h.2.2.2.2.1 pagesQuery 1 5 3 ["a"] (by decide),
    h.2.2.2.2.2 pagesQuery (fun _ => []) 2 5 [] 7 9 rfl rfl⟩

/-- C8 counterexample: the NPB extractor does not strip query strings —
a listing href carrying `?x=1` is returned with its query intact (the NPB
normalization is only origin-prefixing plus `trim()`), so a discovery run
can return a URL containing a query string. -/
theorem C8_counterexample :
    fetchLatestNpbUrls pagesQuery 30
      = ["https://npb.jp/news/detail/202602060.html?x=1"] ∧
    '?' ∈ "https://npb.jp/news/detail/202602060.html?x=1".data := by
  constructor
  · decide
  · decide

/-- C8 (amended): the MLB, HSB and OTHER extractors return only absolute
URLs free of query strings and fragments (MLB builds them from the fixed
news origin and a slug; HSB/OTHER serialize a parsed URL whose `search`
and `hash` were cleared); the NPB extractor instead returns each matching
href merely origin-prefixed when relative and trimmed, preserving any
query or fragment it carries. -/
theorem C8_amended_normalized_urls :
    (∀ (ids : List String) (limit : Nat),
      ∀ s ∈ fetchLatestMlbUrls ids limit,
        '?' ∉ s.data ∧ '#' ∉ s.data ∧ MlbProp s) ∧
    (∀ (uenv : UrlEnv) (hrefs : List String) (limit : Nat)
        (out : List String),
      (∀ t u, uenv.parseAbs t = some u → wfURL u = true) →
      fetchLatestHsbUrls uenv hrefs limit = some out →
      ∀ s ∈ out, '?' ∉ s.data ∧ '#' ∉ s.data ∧ StrippedURL s) ∧
    (∀ (uenv : UrlEnv) (hrefs : List String) (limit : Nat),
      (∀ t u, uenv.parseAbs t = some u → wfURL u = true) →
      ∀ s ∈ fetchLatestOtherUrls uenv hrefs limit,
        '?' ∉ s.data ∧ '#' ∉ s.data ∧ StrippedURL s) ∧
    (∀ (pages : Nat → List String) (limit : Nat),
      ∀ s ∈ fetchLatestNpbUrls pages limit,
        ∃ p href, href ∈ pages p ∧ s = jsTrim (npbAbs href)) := by
  refine ⟨?_, ?_, ?_, ?_⟩
  · intro ids limit s hs
    have h := foldl_inv (mlbStep limit)
      (fun st => st.1 = st.2 ∧ st.2.Nodup ∧ st.2.length ≤ limit ∧
        ∀ x ∈ st.2, MlbProp x)
      ids ([], []) ⟨rfl, List.nodup_nil, by simp, by simp⟩
      (fun rawId _ st hst => mlbStep_inv limit rawId st hst)
    have hp := h.2.2.2 s hs
    exact ⟨(mlbProp_no_query_frag s hp).1, (mlbProp_no_query_frag s hp).2, hp⟩
  · intro uenv hrefs limit out hwf hout s hs
    obtain ⟨st', hf, hst'⟩ := Option.map_eq_some'.mp hout
    have h := hsbFold_inv uenv limit StrippedURL
      (fun t u hu => ⟨{ u with search := "", hash := "" },
        hwf t u hu, rfl, rfl, rfl⟩)
      hrefs ([], []) st' hf ⟨rfl, List.nodup_nil, by simp, by simp⟩
    rw [← hst'] at hs
    have hp := h.2.2.2 s hs
    obtain ⟨u, hwfu, hsr, hha, hser⟩ := hp
    have hc := serializeURL_no_query_frag u hwfu hsr hha
    rw [← hser] at hc
    exact ⟨hc.1, hc.2, u, hwfu, hsr, hha, hser⟩
  · intro uenv hrefs limit hwf s hs
    have h := foldl_inv (otherStep uenv limit)
      (fun st => st.1 = st.2 ∧ st.2.Nodup ∧ st.2.length ≤ limit ∧
        ∀ x ∈ st.2, StrippedURL x)
      hrefs ([], []) ⟨rfl, List.nodup_nil, by simp, by simp⟩
      (fun rawHref _ st hst =>
        otherStep_inv uenv limit rawHref st StrippedURL
          (fun t u hu => ⟨{ u with search := "", hash := "" },
            hwf t u hu, rfl, rfl, rfl⟩) hst)
    have hp := h.2.2.2 s hs
    obtain ⟨u, hwfu, hsr, hha, hser⟩ := hp
    have hc := serializeURL_no_query_frag u hwfu hsr hha
    rw [← hser] at hc
    exact ⟨hc.1, hc.2, u, hwfu, hsr, hha, hser⟩
  · intro pages limit s hs
    have h := npbLoop_inv pages limit (limit + 1) 1 []
      ⟨List.nodup_nil, by simp, by simp⟩
    exact h.2.2 s ((List.take_sublist _ _).subset hs)

theorem C8_witness :
    ('?' ∉ "https://www.mlb.com/news/world-series".data ∧
     '#' ∉ "https://www.mlb.com/news/world-series".data ∧
     MlbProp "https://www.mlb.com/news/world-series") ∧
    (∀ s ∈ ["https://www.nikkansports.com/baseball/highschool/news/a.html"],
      '?' ∉ s.data ∧ '#' ∉ s.data ∧ StrippedURL s) ∧
    (∃ p href, href ∈ pagesQuery p ∧
      "https://npb.jp/news/detail/202602060.html?x=1"
        = jsTrim (npbAbs href)) := by
  have h := C8_amended_normalized_urls
  refine ⟨h.1 ["world-series"] 10 _ (by decide), ?_, ?_⟩
  · exact h.2.1 uenvHsb ["http://x/baseball/highschool/news/a.html"] 10
      ["https://www.nikkansports.com/baseball/highschool/news/a.html"]
      (by intro t u hu; rw [← Option.some.inj hu]; decide) (by decide)
  · exact h.2.2.2 pagesQuery 30 _ (by decide)
